import Mathlib

/-!
Verification development for the `unpoller` UniFi client library core
(`core/unifi/types.go`): the API path resolver (`Unifi.path`) and the two
tolerant scalar decoders (`FlexInt.UnmarshalJSON`, `FlexBool.UnmarshalJSON`).

Modelling conventions:
* Go strings and raw byte slices are modelled as Lean `String`s (the
  payloads involved are ASCII, so bytes and characters coincide).
* Go `float64` is modelled by exact rational arithmetic (`ℚ`).  Every finite
  `float64` is a dyadic rational, hence has a finite decimal expansion; the
  predicate `HasFiniteDecimal` captures the image of that embedding where a
  theorem needs it.  Non-finite values (`Inf`, `NaN`) and rounding are
  outside this abstraction.
* `encoding/json.Unmarshal` into `interface{}` is the standard library, not
  code of this repository; its result is modelled by the `JSONValue`
  inductive (a JSON number arriving as Go `float64`, per that library's
  behaviour), and a syntactically malformed input by `Except.error` carrying
  the library's error.  `FlexInt.UnmarshalJSON` receives that outcome as an
  explicit argument next to the raw bytes.
* A Go method that mutates its receiver and returns `error` is modelled as
  a function from the old receiver value (and input) to the pair of the new
  receiver value and an optional error (`none` = Go `nil`).
-/

/-! ### Constants (source: the `const` block of `core/unifi/types.go`) -/

def APIStatusPath : String := "/status"

def APIEventPath : String := "/api/s/%s/stat/event"

def APISiteList : String := "/api/stat/sites"

def APISiteDPI : String := "/api/s/%s/stat/sitedpi"

def APIClientDPI : String := "/api/s/%s/stat/stadpi"

def APIClientPath : String := "/api/s/%s/stat/sta"

def APINetworkPath : String := "/api/s/%s/rest/networkconf"

def APIDevicePath : String := "/api/s/%s/stat/device"

def APILoginPath : String := "/api/login"

def APILoginPathNew : String := "/api/auth/login"

def APIEventPathIDS : String := "/api/s/%s/stat/ips/event"

def APIEventPathAlarms : String := "/api/s/%s/list/alarm"

def APIPrefixNew : String := "/proxy/network"

def APIAnomaliesPath : String := "/api/s/%s/stat/anomalies"

/-! ### Path resolver (source: `func (u *Unifi) path(path string) string`) -/

/-- Model of Go `strings.HasPrefix s pre`: byte-wise prefix test. -/
def hasPfx (s pre : String) : Bool := pre.data.isPrefixOf s.data

/-- Model of the `Unifi` client handle.  Only the firmware-generation flag
`New` (promoted from the embedded `Config`) is consulted by `path`; the HTTP
client, credentials, cached status record and csrf token play no part in the
code under verification and are omitted from the embedding. -/
structure Unifi where
  New : Bool

/-- Model of `Unifi.path`, translated clause by clause from the source:
if `u.New` then the legacy login path is replaced by the new login path;
otherwise the new prefix is prepended unless the path already carries it or
is the new login path; legacy firmware returns the input unchanged. -/
def Unifi.path (u : Unifi) (path : String) : String :=
  if u.New then
    if path = APILoginPath then
      APILoginPathNew
    else if hasPfx path APIPrefixNew = false ∧ path ≠ APILoginPathNew then
      APIPrefixNew ++ path
    else
      path
  else
    path

/-! ### JSON values as produced by `encoding/json.Unmarshal` into `interface{}` -/

/-- The dynamic value `json.Unmarshal(b, &unk)` stores in an `interface{}`:
a JSON number becomes a Go `float64` (here: exact `ℚ`), a string a `string`,
booleans/arrays/objects keep their kind, and JSON `null` leaves `nil`. -/
inductive JSONValue where
  | num (x : ℚ)
  | str (s : String)
  | bool (b : Bool)
  | null
  | arr (elems : List JSONValue)
  | obj (fields : List (String × JSONValue))

/-- Kinds the `FlexInt` type switch accepts (`float64`, `string`, `nil`). -/
def JSONValue.decodableKind : JSONValue → Bool
  | .num _ => true
  | .str _ => true
  | .null => true
  | _ => false

/-! ### Decimal rendering: model of `strconv.FormatFloat(i, 'f', -1, 64)` -/

/-- The character for a decimal digit `d < 10` (`'0' + d`). -/
def digitChar (d : ℕ) : Char := Char.ofNat (48 + d)

/-- The value of a decimal digit character. -/
def digitVal (c : Char) : ℕ := c.toNat - 48

/-- Whether a character is an ASCII decimal digit (`'0' ≤ c ≤ '9'`). -/
def isDigitChar (c : Char) : Bool := 48 ≤ c.toNat && c.toNat ≤ 57

/-- Big-endian decimal digit characters of `n`, accumulated onto `acc`.
Structural recursion on `fuel`; `fuel = n` always suffices since `n` shrinks
by a factor of ten each step. -/
def digitCharsAux (fuel n : ℕ) (acc : List Char) : List Char :=
  match fuel with
  | 0 => acc
  | fuel + 1 =>
    if n = 0 then acc else digitCharsAux fuel (n / 10) (digitChar (n % 10) :: acc)

/-- Big-endian decimal digit characters of `n` (`"0"` for zero). -/
def digitChars (n : ℕ) : List Char :=
  if n = 0 then ['0'] else digitCharsAux n n []

/-- How many times `p` divides `n` (for `2 ≤ p`, `0 < n`; otherwise `0`).
Structural on `fuel`; `countFactor` instantiates `fuel := n`. -/
def countFactorAux (fuel p n : ℕ) : ℕ :=
  match fuel with
  | 0 => 0
  | fuel + 1 =>
    if 2 ≤ p ∧ 0 < n ∧ n % p = 0 then countFactorAux fuel p (n / p) + 1 else 0

/-- Multiplicity of the prime `p` in `n`. -/
def countFactor (p n : ℕ) : ℕ := countFactorAux n p n

/-- Render the value `(-1)^neg * N / 10^k` in fixed decimal notation with no
exponent, mirroring the digit layout of `strconv.FormatFloat(_, 'f', -1, 64)`:
the digits of `N` with a decimal point inserted `k` places from the right,
zero-padded on the left when `N` has at most `k` digits. -/
def renderDecimal (neg : Bool) (N k : ℕ) : String :=
  let ds := digitChars N
  let body :=
    if k = 0 then ds
    else if k < ds.length then ds.take (ds.length - k) ++ '.' :: ds.drop (ds.length - k)
    else '0' :: '.' :: (List.replicate (k - ds.length) '0' ++ ds)
  String.mk (if neg then '-' :: body else body)

/-- Model of `strconv.FormatFloat(i, 'f', -1, 64)` under the `float64 → ℚ`
embedding: write `|q| = N / 10^k` with the minimal such `k` (the larger of
the multiplicities of `2` and `5` in the reduced denominator — for a value
with a finite decimal expansion this is exact and yields the shortest
fixed-notation digit string, Go's round-trip guarantee) and render it.  On
rationals with no finite decimal expansion — unreachable as `float64`
values — the result is meaningless but total. -/
def formatFloat (q : ℚ) : String :=
  let k := max (countFactor 2 q.den) (countFactor 5 q.den)
  renderDecimal (decide (q < 0)) (q.num.natAbs * (10 ^ k / q.den)) k

/-- `q` has a finite decimal expansion: its reduced denominator divides
`10^k` for the `k` used by `formatFloat`.  Every finite `float64` is a
dyadic rational and satisfies this. -/
def HasFiniteDecimal (q : ℚ) : Prop :=
  q.den ∣ 10 ^ max (countFactor 2 q.den) (countFactor 5 q.den)

instance (q : ℚ) : Decidable (HasFiniteDecimal q) :=
  inferInstanceAs (Decidable (_ ∣ _))

/-- The number denoted by a big-endian digit-character list, extending an
already-accumulated value `acc` (specification device for the digit runs
consumed by the `ParseFloat` model). -/
def digitsVal (acc : ℕ) (l : List Char) : ℕ :=
  l.foldl (fun a c => 10 * a + digitVal c) acc

/-! ### Decimal parsing: model of `strconv.ParseFloat(s, 64)` -/

/-- Peel an optional leading sign, returning (isNegative, rest). -/
def splitSign (cs : List Char) : Bool × List Char :=
  match cs with
  | [] => (false, [])
  | c :: t => if c = '+' then (false, t) else if c = '-' then (true, t) else (false, cs)

/-- Consume a maximal run of decimal digits, extending the accumulated value
`acc` and digit count `cnt`; returns (value, digitCount, rest). -/
def parseDigitsAcc (acc cnt : ℕ) : List Char → ℕ × ℕ × List Char
  | [] => (acc, cnt, [])
  | c :: cs =>
    if isDigitChar c then parseDigitsAcc (10 * acc + digitVal c) (cnt + 1) cs
    else (acc, cnt, c :: cs)

/-- Consume an optional fractional part `'.' digits`. -/
def parseFrac (cs : List Char) : ℕ × ℕ × List Char :=
  match cs with
  | [] => (0, 0, [])
  | c :: t => if c = '.' then parseDigitsAcc 0 0 t else (0, 0, cs)

/-- Parse the exponent part after `e`/`E`: optional sign then digits, which
must reach the end of the input. -/
def parseExpTail (cs : List Char) : Option ℤ :=
  let sr := splitSign cs
  let er := parseDigitsAcc 0 0 sr.2
  if er.2.1 = 0 then none
  else if er.2.2 = [] then some (if sr.1 then -(er.1 : ℤ) else (er.1 : ℤ))
  else none

/-- The rational `M * 10^e`, assembled by integer arithmetic. -/
def ratScale (M : ℤ) (e : ℤ) : ℚ :=
  if 0 ≤ e then Rat.divInt (M * 10 ^ e.toNat) 1 else Rat.divInt M (10 ^ (-e).toNat)

/-- Core of the `strconv.ParseFloat` model on a character list: optional
sign, integer digits, optional fraction, optional exponent; at least one
mantissa digit and no trailing garbage, else failure (`none`). -/
def parseFloatCore (cs : List Char) : Option ℚ :=
  let sr := splitSign cs
  let ir := parseDigitsAcc 0 0 sr.2
  let fr := parseFrac ir.2.2
  if ir.2.1 + fr.2.1 = 0 then none
  else
    let M : ℤ := (if sr.1 then -1 else 1) * ((ir.1 * 10 ^ fr.2.1 + fr.1 : ℕ) : ℤ)
    match fr.2.2 with
    | [] => some (Rat.divInt M (10 ^ fr.2.1))
    | c :: t =>
      if c = 'e' ∨ c = 'E' then
        match parseExpTail t with
        | some e => some (ratScale M (e - (fr.2.1 : ℤ)))
        | none => none
      else none

/-- Model of `strconv.ParseFloat(s, 64)` under the `float64 → ℚ` embedding:
`none` models a non-nil error (Go then returns value `0` for syntax errors —
the only error kind this exact-arithmetic abstraction produces; range
overflow, hex floats, underscores and the literals `Inf`/`NaN` concern
non-finite or non-decimal `float64` syntax outside the abstraction). -/
def parseFloat (s : String) : Option ℚ := parseFloatCore s.data

/-! ### FlexInt (source: `type FlexInt struct` and its `UnmarshalJSON`) -/

/-- `FlexInt` holds the canonical numeric value and the original text. -/
structure FlexInt where
  Val : ℚ
  Txt : String
deriving DecidableEq

/-- The sentinel `errCannotUnmarshalFlexInt = fmt.Errorf("cannot unmarshal to FlexInt")`. -/
def errCannotUnmarshalFlexInt : String := "cannot unmarshal to FlexInt"

/-- `fmt.Sprintf("%v", b)` for a byte slice `b`: the decimal byte values,
space-separated inside brackets (bytes = ASCII character codes here). -/
def goSprintfV (b : String) : String :=
  "[" ++ String.intercalate " " (b.data.map (fun c => toString c.toNat)) ++ "]"

/-- Model of `errors.Wrapf(errCannotUnmarshalFlexInt, "%v", b)`: the
wrapping message, a colon-space, then the wrapped error's message. -/
def wrapCannotUnmarshal (b : String) : String :=
  goSprintfV b ++ ": " ++ errCannotUnmarshalFlexInt

/-- Model of `func (f *FlexInt) UnmarshalJSON(b []byte) error`, branch for
branch from the source: a failed `json.Unmarshal` returns its error with the
receiver untouched; `float64` stores the value and its `FormatFloat`
rendering; `string` stores the text and the error-swallowed `ParseFloat`
value; `nil` stores `0`/`"0"`; any other dynamic type returns the wrapped
sentinel error with the receiver untouched. -/
def FlexInt.UnmarshalJSON (f : FlexInt) (b : String) (unk : Except String JSONValue) :
    FlexInt × Option String :=
  match unk with
  | .error e => (f, some e)
  | .ok (.num i) => ({ Val := i, Txt := formatFloat i }, none)
  | .ok (.str i) => ({ Val := (parseFloat i).getD 0, Txt := i }, none)
  | .ok .null => ({ Val := 0, Txt := "0" }, none)
  | .ok _ => (f, some (wrapCannotUnmarshal b))

/-! ### FlexBool (source: `type FlexBool struct` and its `UnmarshalJSON`) -/

/-- `FlexBool` holds the canonical boolean and the original (trimmed) text. -/
structure FlexBool where
  Val : Bool
  Txt : String
deriving DecidableEq

/-- ASCII case folding (`'A'..'Z'` to lower case, everything else fixed). -/
def asciiLower (c : Char) : Char :=
  if 65 ≤ c.toNat ∧ c.toNat ≤ 90 then Char.ofNat (c.toNat + 32) else c

/-- Model of Go `strings.EqualFold` on the ASCII payloads at hand (Unicode
simple case folding coincides with ASCII case folding on ASCII input). -/
def equalFold (s t : String) : Bool :=
  s.data.map asciiLower == t.data.map asciiLower

/-- Model of `strings.Trim(s, "\"")`: remove ALL leading and ALL trailing
double-quote characters (Go's `Trim` takes a cutset, not a single layer). -/
def trimQuotes (s : String) : String :=
  String.mk (((s.data.dropWhile (fun c => c = '"')).reverse.dropWhile (fun c => c = '"')).reverse)

/-- Model of `func (f *FlexBool) UnmarshalJSON(b []byte) error`: both fields
are overwritten (so the old receiver value is irrelevant), the text is the
quote-trimmed input, the boolean is the source's ten-way disjunction, and
the returned error is always `nil`. -/
def FlexBool.UnmarshalJSON (b : String) : FlexBool × Option String :=
  let txt := trimQuotes b
  ({ Txt := txt
     Val := decide (txt = "1") || equalFold txt "true" || equalFold txt "yes" ||
       equalFold txt "t" || equalFold txt "armed" || equalFold txt "active" ||
       equalFold txt "enabled" || equalFold txt "ready" || equalFold txt "up" ||
       equalFold txt "ok" }, none)

/-- The truthy vocabulary named by the specification (§4.2). -/
def truthyVocab : List String :=
  ["1", "true", "yes", "t", "armed", "active", "enabled", "ready", "up", "ok"]

/-- Per the specification's words for the boolean decoder's text handling
(claim C6): strip a single layer of surrounding double quotes, one from each
end when present, leaving the internal content untouched. -/
def stripOneQuoteLayer (s : String) : String :=
  let l1 := match s.data with
    | '"' :: t => t
    | l => l
  String.mk (match l1.reverse with
    | '"' :: t => t.reverse
    | _ => l1)

/-! ### Helper lemmas: digit characters -/

theorem digitChar_isDigit : ∀ d, d < 10 → isDigitChar (digitChar d) = true := by decide

theorem digitVal_digitChar : ∀ d, d < 10 → digitVal (digitChar d) = d := by decide

theorem ne_of_isDigitChar {c : Char} (h : isDigitChar c = true) :
    c ≠ '+' ∧ c ≠ '-' ∧ c ≠ '.' := by
  refine ⟨?_, ?_, ?_⟩ <;> rintro rfl <;> exact absurd h (by decide)

theorem digitsVal_nil (acc : ℕ) : digitsVal acc [] = acc := rfl

theorem digitsVal_cons (acc : ℕ) (c : Char) (l : List Char) :
    digitsVal acc (c :: l) = digitsVal (10 * acc + digitVal c) l := rfl

theorem digitsVal_append (acc : ℕ) (A B : List Char) :
    digitsVal acc (A ++ B) = digitsVal (digitsVal acc A) B :=
  List.foldl_append _ _ _ _

theorem digitsVal_shift (l : List Char) : ∀ acc : ℕ,
    digitsVal acc l = acc * 10 ^ l.length + digitsVal 0 l := by
  induction l with
  | nil => intro acc; simp [digitsVal_nil]
  | cons c t ih =>
    intro acc
    rw [digitsVal_cons, digitsVal_cons, ih, ih (10 * 0 + digitVal c)]
    ring_nf
    simp [List.length_cons, pow_succ]
    ring

theorem digitsVal_replicate_zero : ∀ z : ℕ, digitsVal 0 (List.replicate z '0') = 0 := by
  intro z
  induction z with
  | zero => rfl
  | succ n ih =>
    rw [List.replicate_succ, digitsVal_cons]
    simpa using ih

theorem foldr_eq_ofDigits (L : List ℕ) :
    L.foldr (fun d a => 10 * a + d) 0 = Nat.ofDigits 10 L := by
  induction L with
  | nil => simp [Nat.ofDigits]
  | cons d t ih => rw [List.foldr_cons, ih, Nat.ofDigits_cons]; ring

theorem digitsVal_reverse_map (L : List ℕ) (hL : ∀ d ∈ L, d < 10) :
    digitsVal 0 ((L.map digitChar).reverse) = Nat.ofDigits 10 L := by
  unfold digitsVal
  rw [List.foldl_reverse, List.foldr_map]
  rw [← foldr_eq_ofDigits]
  induction L with
  | nil => rfl
  | cons d t ih =>
    rw [List.foldr_cons, List.foldr_cons,
      digitVal_digitChar d (hL d (List.mem_cons_self d t)),
      ih (fun x hx => hL x (List.mem_cons_of_mem d hx))]

theorem digitCharsAux_eq : ∀ (fuel n : ℕ) (acc : List Char), n ≤ fuel →
    digitCharsAux fuel n acc = ((Nat.digits 10 n).map digitChar).reverse ++ acc := by
  intro fuel
  induction fuel with
  | zero =>
    intro n acc hn
    interval_cases n
    simp [digitCharsAux]
  | succ fuel ih =>
    intro n acc hn
    by_cases h0 : n = 0
    · subst h0; simp [digitCharsAux]
    · rw [digitCharsAux]
      rw [if_neg h0]
      rw [ih (n / 10) _ (by omega)]
      rw [Nat.digits_def' (by norm_num : (1:ℕ) < 10) (Nat.pos_of_ne_zero h0)]
      simp

theorem digitChars_eq (n : ℕ) :
    digitChars n = if n = 0 then ['0'] else ((Nat.digits 10 n).map digitChar).reverse := by
  by_cases h : n = 0
  · simp [digitChars, h]
  · rw [digitChars, if_neg h, if_neg h, digitCharsAux_eq n n [] le_rfl, List.append_nil]

theorem mem_digitChars_isDigit (n : ℕ) : ∀ c ∈ digitChars n, isDigitChar c = true := by
  intro c hc
  rw [digitChars_eq] at hc
  by_cases h : n = 0
  · rw [if_pos h] at hc
    simp at hc
    subst hc
    decide
  · rw [if_neg h] at hc
    simp only [List.mem_reverse, List.mem_map] at hc
    obtain ⟨d, hd, rfl⟩ := hc
    exact digitChar_isDigit d (Nat.digits_lt_base (by norm_num) hd)

theorem digitsVal_digitChars (n : ℕ) : digitsVal 0 (digitChars n) = n := by
  rw [digitChars_eq]
  by_cases h : n = 0
  · subst h; decide
  · rw [if_neg h, digitsVal_reverse_map _ (fun d hd => Nat.digits_lt_base (by norm_num) hd),
      Nat.ofDigits_digits]

theorem digitChars_ne_nil (n : ℕ) : digitChars n ≠ [] := by
  rw [digitChars_eq]
  by_cases h : n = 0
  · simp [h]
  · rw [if_neg h]
    simp [Nat.digits_ne_nil_iff_ne_zero.mpr h]

/-! ### Helper lemmas: running the `ParseFloat` model on rendered digits -/

theorem parseDigitsAcc_nil (acc cnt : ℕ) : parseDigitsAcc acc cnt [] = (acc, cnt, []) := rfl

theorem parseDigitsAcc_stop (acc cnt : ℕ) {c : Char} (cs : List Char)
    (h : isDigitChar c = false) : parseDigitsAcc acc cnt (c :: cs) = (acc, cnt, c :: cs) := by
  simp [parseDigitsAcc, h]

theorem parseDigitsAcc_append (A : List Char) : ∀ (rest : List Char) (acc cnt : ℕ),
    (∀ c ∈ A, isDigitChar c = true) →
    parseDigitsAcc acc cnt (A ++ rest) = parseDigitsAcc (digitsVal acc A) (cnt + A.length) rest := by
  induction A with
  | nil => intro rest acc cnt _; simp [digitsVal_nil]
  | cons c t ih =>
    intro rest acc cnt hA
    rw [List.cons_append, parseDigitsAcc, if_pos (hA c (List.mem_cons_self c t)),
      ih rest _ _ (fun x hx => hA x (List.mem_cons_of_mem c hx)), digitsVal_cons]
    congr 1
    simp [List.length_cons]
    omega

theorem splitSign_neg (t : List Char) : splitSign ('-' :: t) = (true, t) := rfl

theorem splitSign_digit {c : Char} (t : List Char) (h : isDigitChar c = true) :
    splitSign (c :: t) = (false, c :: t) := by
  obtain ⟨h1, h2, _⟩ := ne_of_isDigitChar h
  simp [splitSign, h1, h2]

theorem parseFrac_nil : parseFrac [] = (0, 0, []) := rfl

theorem parseFrac_dot (t : List Char) : parseFrac ('.' :: t) = parseDigitsAcc 0 0 t := rfl

/-- Generic assembly: once the sign split, the integer-digit run and the
fraction run of the input are known (and the fraction consumes the entire
remaining input), the `ParseFloat` model returns the assembled rational. -/
theorem parseFloatCore_assemble (neg : Bool) (body cs rest₁ : List Char)
    (ip icnt fp fcnt : ℕ)
    (hsplit : splitSign cs = (neg, body))
    (h1 : parseDigitsAcc 0 0 body = (ip, icnt, rest₁))
    (h2 : parseFrac rest₁ = (fp, fcnt, []))
    (h3 : icnt + fcnt ≠ 0) :
    parseFloatCore cs =
      some (Rat.divInt ((if neg then -1 else 1) * ((ip * 10 ^ fcnt + fp : ℕ) : ℤ))
        (10 ^ fcnt)) := by
  unfold parseFloatCore
  rw [hsplit]
  simp only [h1, h2, if_neg h3]

theorem parseFloatCore_digits (neg : Bool) (N : ℕ) :
    parseFloatCore (if neg then '-' :: digitChars N else digitChars N) =
      some (Rat.divInt ((if neg then -1 else 1) * (N : ℤ)) 1) := by
  obtain ⟨c, t, hct⟩ := List.exists_cons_of_ne_nil (digitChars_ne_nil N)
  have hdig : ∀ x ∈ digitChars N, isDigitChar x = true := mem_digitChars_isDigit N
  have hsplit : splitSign (if neg then '-' :: digitChars N else digitChars N)
      = (neg, digitChars N) := by
    cases neg
    · rw [if_neg (by simp), hct]
      exact splitSign_digit t (hdig c (hct ▸ List.mem_cons_self c t))
    · exact splitSign_neg _
  have h1 : parseDigitsAcc 0 0 (digitChars N) = (N, 0 + (digitChars N).length, []) := by
    have happ := parseDigitsAcc_append (digitChars N) [] 0 0 hdig
    rw [List.append_nil] at happ
    rw [happ, digitsVal_digitChars, parseDigitsAcc_nil]
  have h3 : 0 + (digitChars N).length + 0 ≠ 0 := by
    rw [hct]; simp
  have hres := parseFloatCore_assemble neg (digitChars N) _ [] N (0 + (digitChars N).length)
    0 0 hsplit h1 parseFrac_nil h3
  rw [hres]
  norm_num

theorem parseFloatCore_point (neg : Bool) (N k : ℕ) (hlt : k < (digitChars N).length) :
    parseFloatCore (if neg
        then '-' :: ((digitChars N).take ((digitChars N).length - k) ++
          '.' :: (digitChars N).drop ((digitChars N).length - k))
        else (digitChars N).take ((digitChars N).length - k) ++
          '.' :: (digitChars N).drop ((digitChars N).length - k)) =
      some (Rat.divInt ((if neg then -1 else 1) * (N : ℤ)) (10 ^ k)) := by
  have hdig : ∀ x ∈ digitChars N, isDigitChar x = true := mem_digitChars_isDigit N
  have hTdig : ∀ x ∈ (digitChars N).take ((digitChars N).length - k), isDigitChar x = true :=
    fun x hx => hdig x (List.take_subset _ _ hx)
  have hDdig : ∀ x ∈ (digitChars N).drop ((digitChars N).length - k), isDigitChar x = true :=
    fun x hx => hdig x (List.drop_subset _ _ hx)
  have hTlen : ((digitChars N).take ((digitChars N).length - k)).length =
      (digitChars N).length - k := by
    rw [List.length_take]; omega
  have hDlen : ((digitChars N).drop ((digitChars N).length - k)).length = k := by
    rw [List.length_drop]; omega
  have hTne : (digitChars N).take ((digitChars N).length - k) ≠ [] := by
    intro hnil
    rw [hnil] at hTlen
    simp at hTlen
    omega
  obtain ⟨c, t, hct⟩ := List.exists_cons_of_ne_nil hTne
  have hsplit : splitSign (if neg
      then '-' :: ((digitChars N).take ((digitChars N).length - k) ++
        '.' :: (digitChars N).drop ((digitChars N).length - k))
      else (digitChars N).take ((digitChars N).length - k) ++
        '.' :: (digitChars N).drop ((digitChars N).length - k)) =
      (neg, (digitChars N).take ((digitChars N).length - k) ++
        '.' :: (digitChars N).drop ((digitChars N).length - k)) := by
    cases neg
    · rw [if_neg (by simp), hct, List.cons_append]
      exact splitSign_digit _ (hTdig c (hct ▸ List.mem_cons_self c t))
    · exact splitSign_neg _
  have h1 : parseDigitsAcc 0 0 ((digitChars N).take ((digitChars N).length - k) ++
      '.' :: (digitChars N).drop ((digitChars N).length - k)) =
      (digitsVal 0 ((digitChars N).take ((digitChars N).length - k)),
        0 + ((digitChars N).take ((digitChars N).length - k)).length,
        '.' :: (digitChars N).drop ((digitChars N).length - k)) := by
    rw [parseDigitsAcc_append _ _ _ _ hTdig, parseDigitsAcc_stop _ _ _ (by decide)]
  have h2 : parseFrac ('.' :: (digitChars N).drop ((digitChars N).length - k)) =
      (digitsVal 0 ((digitChars N).drop ((digitChars N).length - k)),
        0 + ((digitChars N).drop ((digitChars N).length - k)).length, []) := by
    rw [parseFrac_dot]
    have happ := parseDigitsAcc_append ((digitChars N).drop ((digitChars N).length - k))
      [] 0 0 hDdig
    rw [List.append_nil] at happ
    rw [happ, parseDigitsAcc_nil]
  have h3 : 0 + ((digitChars N).take ((digitChars N).length - k)).length +
      (0 + ((digitChars N).drop ((digitChars N).length - k)).length) ≠ 0 := by
    rw [hTlen, hDlen]; omega
  have hres := parseFloatCore_assemble neg _ _ _ _ _ _ _ hsplit h1 h2 h3
  rw [hres]
  have hval : digitsVal 0 ((digitChars N).take ((digitChars N).length - k)) *
      10 ^ (0 + ((digitChars N).drop ((digitChars N).length - k)).length) +
      digitsVal 0 ((digitChars N).drop ((digitChars N).length - k)) = N := by
    rw [Nat.zero_add, ← digitsVal_shift, ← digitsVal_append, List.take_append_drop,
      digitsVal_digitChars]
  rw [hval, Nat.zero_add, hDlen]

theorem parseFloatCore_pad (neg : Bool) (N k : ℕ) (hge : (digitChars N).length ≤ k) :
    parseFloatCore (if neg
        then '-' :: '0' :: '.' ::
          (List.replicate (k - (digitChars N).length) '0' ++ digitChars N)
        else '0' :: '.' ::
          (List.replicate (k - (digitChars N).length) '0' ++ digitChars N)) =
      some (Rat.divInt ((if neg then -1 else 1) * (N : ℤ)) (10 ^ k)) := by
  have hdig : ∀ x ∈ digitChars N, isDigitChar x = true := mem_digitChars_isDigit N
  have hRdig : ∀ x ∈ List.replicate (k - (digitChars N).length) '0' ++ digitChars N,
      isDigitChar x = true := by
    intro x hx
    rcases List.mem_append.mp hx with hx | hx
    · rw [(List.eq_of_mem_replicate hx : x = '0')]; decide
    · exact hdig x hx
  have hsplit : splitSign (if neg
      then '-' :: '0' :: '.' ::
        (List.replicate (k - (digitChars N).length) '0' ++ digitChars N)
      else '0' :: '.' ::
        (List.replicate (k - (digitChars N).length) '0' ++ digitChars N)) =
      (neg, '0' :: '.' ::
        (List.replicate (k - (digitChars N).length) '0' ++ digitChars N)) := by
    cases neg
    · rw [if_neg (by simp)]
      exact splitSign_digit _ (by decide)
    · exact splitSign_neg _
  have h1 : parseDigitsAcc 0 0 ('0' :: '.' ::
      (List.replicate (k - (digitChars N).length) '0' ++ digitChars N)) =
      (0, 1, '.' :: (List.replicate (k - (digitChars N).length) '0' ++ digitChars N)) := by
    have : ('0' : Char) :: '.' ::
        (List.replicate (k - (digitChars N).length) '0' ++ digitChars N) =
        ['0'] ++ '.' :: (List.replicate (k - (digitChars N).length) '0' ++ digitChars N) := rfl
    rw [this, parseDigitsAcc_append _ _ _ _ (by intro x hx; simp at hx; subst hx; decide),
      parseDigitsAcc_stop _ _ _ (by decide)]
    rfl
  have h2 : parseFrac ('.' ::
      (List.replicate (k - (digitChars N).length) '0' ++ digitChars N)) =
      (N, 0 + (List.replicate (k - (digitChars N).length) '0' ++ digitChars N).length,
        []) := by
    rw [parseFrac_dot]
    have happ := parseDigitsAcc_append
      (List.replicate (k - (digitChars N).length) '0' ++ digitChars N) [] 0 0 hRdig
    rw [List.append_nil] at happ
    rw [happ, parseDigitsAcc_nil, digitsVal_append, digitsVal_replicate_zero,
      digitsVal_digitChars]
  have h3 : 1 + (0 + (List.replicate (k - (digitChars N).length) '0' ++
      digitChars N).length) ≠ 0 := by omega
  have hres := parseFloatCore_assemble neg _ _ _ _ _ _ _ hsplit h1 h2 h3
  rw [hres]
  have hlen : 0 + (List.replicate (k - (digitChars N).length) '0' ++
      digitChars N).length = k := by
    rw [List.length_append, List.length_replicate]
    omega
  rw [hlen]
  norm_num

theorem data_mk (l : List Char) : (String.mk l).data = l := rfl

/-- Parsing any rendered fixed-decimal string recovers the rendered value. -/
theorem parseFloat_renderDecimal (neg : Bool) (N k : ℕ) :
    parseFloat (renderDecimal neg N k) =
      some (Rat.divInt ((if neg then -1 else 1) * (N : ℤ)) (10 ^ k)) := by
  unfold parseFloat renderDecimal
  rw [data_mk]
  by_cases hk : k = 0
  · subst hk
    simp only [eq_self_iff_true, if_true]
    rw [parseFloatCore_digits neg N]
    norm_num
  · by_cases hlt : k < (digitChars N).length
    · simp only [hk, if_false, hlt, if_true]
      exact parseFloatCore_point neg N k hlt
    · simp only [hk, if_false, hlt]
      exact parseFloatCore_pad neg N k (by omega)

/-- Round-trip of the `strconv` models: re-parsing `FormatFloat`'s rendering
of any finite-decimal rational recovers it exactly (Go's shortest-round-trip
guarantee, at the exact-arithmetic level). -/
theorem parseFloat_formatFloat {q : ℚ} (h : HasFiniteDecimal q) :
    parseFloat (formatFloat q) = some q := by
  unfold formatFloat
  rw [parseFloat_renderDecimal]
  congr 1
  have hdvd : q.den ∣ 10 ^ max (countFactor 2 q.den) (countFactor 5 q.den) := h
  have hden0 : (q.den : ℚ) ≠ 0 := by exact_mod_cast q.den_nz
  have hdenpos : (0 : ℚ) < (q.den : ℚ) := by
    have := Nat.pos_of_ne_zero q.den_nz
    exact_mod_cast this
  have hcast : ((10 ^ max (countFactor 2 q.den) (countFactor 5 q.den) / q.den : ℕ) : ℚ)
      = (10 : ℚ) ^ max (countFactor 2 q.den) (countFactor 5 q.den) / (q.den : ℚ) := by
    rw [Nat.cast_div hdvd hden0]
    push_cast
    ring
  have habs : |(q.num : ℚ)| / (q.den : ℚ) = |q| := by
    rw [← abs_of_pos hdenpos, ← abs_div, Rat.num_div_den]
  have hnum : ((q.num.natAbs * (10 ^ max (countFactor 2 q.den) (countFactor 5 q.den) /
      q.den) : ℕ) : ℚ) =
      |q| * 10 ^ max (countFactor 2 q.den) (countFactor 5 q.den) := by
    rw [Nat.cast_mul, hcast, Int.cast_natAbs, ← habs]
    field_simp
  have hpow0 : ((10 : ℚ)) ^ max (countFactor 2 q.den) (countFactor 5 q.den) ≠ 0 := by
    positivity
  have key : ∀ s : ℤ,
      Rat.divInt (s * ((q.num.natAbs * (10 ^ max (countFactor 2 q.den)
          (countFactor 5 q.den) / q.den) : ℕ) : ℤ))
        (10 ^ max (countFactor 2 q.den) (countFactor 5 q.den)) = (s : ℚ) * |q| := by
    intro s
    rw [Rat.divInt_eq_div, Int.cast_mul, Int.cast_natCast, hnum]
    push_cast
    field_simp
    ring
  rw [key]
  rcases lt_or_le q 0 with hq | hq
  · rw [decide_eq_true hq]
    simp [abs_of_neg hq]
  · rw [decide_eq_false (not_lt.mpr hq)]
    simp [abs_of_nonneg hq]

/-! ### Helper lemmas: ASCII case folding and the boolean vocabulary -/

theorem charOfNat_toNat_lower : ∀ n, n < 123 → 96 < n → (Char.ofNat n).toNat = n := by decide

theorem asciiLower_eq_one {c : Char} : asciiLower c = '1' ↔ c = '1' := by
  unfold asciiLower
  by_cases h : 65 ≤ c.toNat ∧ c.toNat ≤ 90
  · rw [if_pos h]
    constructor
    · intro heq
      exfalso
      have hv : (Char.ofNat (c.toNat + 32)).toNat = c.toNat + 32 :=
        charOfNat_toNat_lower _ (by omega) (by omega)
      rw [heq] at hv
      have hone : ('1' : Char).toNat = 49 := by decide
      omega
    · intro heq
      exfalso
      subst heq
      revert h
      decide
  · rw [if_neg h]

theorem map_asciiLower_eq_one {l : List Char} : l.map asciiLower = ['1'] ↔ l = ['1'] := by
  cases l with
  | nil => simp
  | cons c t =>
    cases t with
    | nil => simp [asciiLower_eq_one]
    | cons c2 t2 => simp

theorem equalFold_one (s : String) : equalFold s "1" = decide (s = "1") := by
  unfold equalFold
  have h2 : (("1" : String).data.map asciiLower) = ['1'] := by decide
  rw [h2]
  rcases h : decide (s = "1") with _ | _
  · have hne : s ≠ "1" := of_decide_eq_false h
    have hne2 : s.data ≠ ['1'] := by
      intro hd
      exact hne (String.ext hd)
    rw [Bool.eq_false_iff]
    intro hb
    exact hne2 (map_asciiLower_eq_one.mp (by exact_mod_cast eq_of_beq hb))
  · have he : s = "1" := of_decide_eq_true h
    subst he
    decide

/-! ### Helper lemmas: path resolver -/

theorem hasPfx_append (s t : String) : hasPfx (s ++ t) s = true := by
  unfold hasPfx
  rw [String.data_append]
  exact List.isPrefixOf_iff_prefix.mpr (List.prefix_append _ _)

theorem append_ne_loginPath (p : String) : APIPrefixNew ++ p ≠ APILoginPath := by
  intro h
  have h1 : hasPfx (APIPrefixNew ++ p) APIPrefixNew = true := hasPfx_append _ _
  rw [h] at h1
  exact absurd h1 (by decide)

/-- Under new firmware, a path that already carries the proxy prefix is a
fixed point of the resolver. -/
theorem path_fixed_of_prefixed (u : Unifi) (p : String) (h : u.New = true)
    (hpre : hasPfx p APIPrefixNew = true) : u.path p = p := by
  have hne : p ≠ APILoginPath := by
    intro heq
    rw [heq] at hpre
    exact absurd hpre (by decide)
  simp only [Unifi.path]
  rw [if_pos h, if_neg hne, if_neg]
  rintro ⟨h1, -⟩
  rw [hpre] at h1
  cases h1

/-! ### Claims about the path resolver -/

/-- C1: for every input path and client handle, the resolver returns the
input unchanged on legacy firmware; on new firmware it maps the legacy login
path to the new login path, prepends the proxy prefix to a path that neither
carries it already nor is the new login path, and otherwise returns the
input unchanged.  It is a pure, total function of (path, flag). -/
theorem C1_path_resolver_cases (u : Unifi) (p : String) :
    (u.New = false → u.path p = p) ∧
    (u.New = true → p = APILoginPath → u.path p = APILoginPathNew) ∧
    (u.New = true → p ≠ APILoginPath → hasPfx p APIPrefixNew = false →
      p ≠ APILoginPathNew → u.path p = APIPrefixNew ++ p) ∧
    (u.New = true → p ≠ APILoginPath →
      (hasPfx p APIPrefixNew = true ∨ p = APILoginPathNew) → u.path p = p) := by
  refine ⟨?_, ?_, ?_, ?_⟩
  · intro h
    simp [Unifi.path, h]
  · intro h hp
    simp [Unifi.path, h, hp]
  · intro h hp h1 h2
    simp only [Unifi.path]
    rw [if_pos h, if_neg hp, if_pos ⟨h1, h2⟩]
  · intro h hp hor
    simp only [Unifi.path]
    rw [if_pos h, if_neg hp, if_neg]
    rintro ⟨h1, h2⟩
    rcases hor with h3 | h3
    · rw [h3] at h1
      cases h1
    · exact h2 h3

theorem C1_path_resolver_cases_witness :
    Unifi.path ⟨false⟩ "/status" = "/status" ∧
    Unifi.path ⟨true⟩ "/api/login" = "/api/auth/login" ∧
    Unifi.path ⟨true⟩ "/status" = "/proxy/network/status" ∧
    Unifi.path ⟨true⟩ "/proxy/network/status" = "/proxy/network/status" := by
  refine ⟨(C1_path_resolver_cases ⟨false⟩ "/status").1 rfl,
    (C1_path_resolver_cases ⟨true⟩ "/api/login").2.1 rfl rfl, ?_, ?_⟩
  · rw [(C1_path_resolver_cases ⟨true⟩ "/status").2.2.1 rfl (by decide) (by decide) (by decide)]
    decide
  · exact (C1_path_resolver_cases ⟨true⟩ "/proxy/network/status").2.2.2 rfl (by decide)
      (Or.inl (by decide))

/-- C8: the resolver is idempotent for every path and flag value, and under
new firmware any path already starting with the proxy prefix is returned
unchanged. -/
theorem C8_path_idempotent (u : Unifi) (p : String) :
    u.path (u.path p) = u.path p ∧
    (u.New = true → hasPfx p APIPrefixNew = true → u.path p = p) := by
  refine ⟨?_, fun h hpre => path_fixed_of_prefixed u p h hpre⟩
  by_cases hN : u.New = true
  · by_cases hp : p = APILoginPath
    · have h1 : u.path p = APILoginPathNew := by
        simp [Unifi.path, hN, hp]
      rw [h1]
      simp only [Unifi.path]
      rw [if_pos hN, if_neg (by decide : APILoginPathNew ≠ APILoginPath),
        if_neg (by decide)]
    · by_cases hC : hasPfx p APIPrefixNew = false ∧ p ≠ APILoginPathNew
      · have h1 : u.path p = APIPrefixNew ++ p := by
          simp only [Unifi.path]
          rw [if_pos hN, if_neg hp, if_pos hC]
        rw [h1]
        exact path_fixed_of_prefixed u _ hN (hasPfx_append _ _)
      · have h1 : u.path p = p := by
          simp only [Unifi.path]
          rw [if_pos hN, if_neg hp, if_neg hC]
        rw [h1]
        exact h1
  · have hN' : u.New = false := by
      revert hN
      cases u.New <;> simp
    simp [Unifi.path, hN']

theorem C8_path_idempotent_witness :
    Unifi.path ⟨true⟩ (Unifi.path ⟨true⟩ "/api/login") = Unifi.path ⟨true⟩ "/api/login" ∧
    Unifi.path ⟨true⟩ "/proxy/network/clients" = "/proxy/network/clients" :=
  ⟨(C8_path_idempotent ⟨true⟩ "/api/login").1,
    (C8_path_idempotent ⟨true⟩ "/proxy/network/clients").2 rfl (by decide)⟩

/-- C10: under new firmware the resolver's output always either starts with
the proxy prefix or is exactly the new login path. -/
theorem C10_new_firmware_output_shape (u : Unifi) (p : String) (h : u.New = true) :
    hasPfx (u.path p) APIPrefixNew = true ∨ u.path p = APILoginPathNew := by
  by_cases hp : p = APILoginPath
  · right
    simp [Unifi.path, h, hp]
  · by_cases hC : hasPfx p APIPrefixNew = false ∧ p ≠ APILoginPathNew
    · left
      have h1 : u.path p = APIPrefixNew ++ p := by
        simp only [Unifi.path]
        rw [if_pos h, if_neg hp, if_pos hC]
      rw [h1]
      exact hasPfx_append _ _
    · have h1 : u.path p = p := by
        simp only [Unifi.path]
        rw [if_pos h, if_neg hp, if_neg hC]
      rw [h1]
      rcases not_and_or.mp hC with h2 | h2
      · left
        revert h2
        cases hasPfx p APIPrefixNew <;> simp
      · right
        simpa using h2

theorem C10_new_firmware_output_shape_witness :
    hasPfx (Unifi.path ⟨true⟩ "/status") APIPrefixNew = true ∨
      Unifi.path ⟨true⟩ "/status" = APILoginPathNew :=
  C10_new_firmware_output_shape ⟨true⟩ "/status" rfl

/-! ### Claims about the boolean decoder -/

/-- C2: the boolean decoder never returns an error, and the stored `Val` is
true exactly when the stored `Txt` case-insensitively matches one of the ten
truthy tokens; the listed non-members (and the empty string) all yield
`false`, while every vocabulary member yields `true` in any letter case. -/
theorem C2_flexbool_truthy_vocab (b : String) :
    (FlexBool.UnmarshalJSON b).2 = none ∧
    ((FlexBool.UnmarshalJSON b).1.Val =
      truthyVocab.any (fun t => equalFold (FlexBool.UnmarshalJSON b).1.Txt t)) ∧
    (FlexBool.UnmarshalJSON "1").1.Val = true ∧
    (FlexBool.UnmarshalJSON "\"True\"").1.Val = true ∧
    (FlexBool.UnmarshalJSON "YES").1.Val = true ∧
    (FlexBool.UnmarshalJSON "Armed").1.Val = true ∧
    (FlexBool.UnmarshalJSON "aCtIvE").1.Val = true ∧
    (FlexBool.UnmarshalJSON "ENABLED").1.Val = true ∧
    (FlexBool.UnmarshalJSON "ready").1.Val = true ∧
    (FlexBool.UnmarshalJSON "UP").1.Val = true ∧
    (FlexBool.UnmarshalJSON "ok").1.Val = true ∧
    (FlexBool.UnmarshalJSON "t").1.Val = true ∧
    (FlexBool.UnmarshalJSON "0").1.Val = false ∧
    (FlexBool.UnmarshalJSON "false").1.Val = false ∧
    (FlexBool.UnmarshalJSON "no").1.Val = false ∧
    (FlexBool.UnmarshalJSON "disarmed").1.Val = false ∧
    (FlexBool.UnmarshalJSON "inactive").1.Val = false ∧
    (FlexBool.UnmarshalJSON "disabled").1.Val = false ∧
    (FlexBool.UnmarshalJSON "").1.Val = false := by
  refine ⟨rfl, ?_, by decide⟩
  show (FlexBool.UnmarshalJSON b).1.Val = _
  simp only [FlexBool.UnmarshalJSON, truthyVocab, List.any_cons, List.any_nil,
    Bool.or_false, Bool.or_assoc, equalFold_one]

/-! ### Claims about the boolean decoder's text handling (C6) -/

/-- C6 fails as stated: on the input `""x""` the code's `strings.Trim` with
a quote cutset removes BOTH quote layers, producing `x`, while a single-layer
strip per the claim would produce `"x"`. -/
theorem C6_single_layer_counterexample :
    (FlexBool.UnmarshalJSON "\"\"x\"\"").1.Txt = "x" ∧
    stripOneQuoteLayer "\"\"x\"\"" = "\"x\"" ∧
    (FlexBool.UnmarshalJSON "\"\"x\"\"").1.Txt ≠ stripOneQuoteLayer "\"\"x\"\"" := by
  decide

/-- C6 (amended): for every raw input, the decoder sets `Txt` to the input
with ALL leading and trailing double-quote characters removed (Go's
`strings.Trim` cutset semantics), leaving the interior untouched; a single
surrounding quote layer is therefore stripped, and repeated surrounding
quotes are stripped entirely. -/
theorem C6_trim_all_quotes (b : String) :
    (FlexBool.UnmarshalJSON b).1.Txt = trimQuotes b ∧
    (FlexBool.UnmarshalJSON "\"up\"").1.Txt = "up" ∧
    (FlexBool.UnmarshalJSON "\"\"x\"\"").1.Txt = "x" ∧
    (FlexBool.UnmarshalJSON "a\"b").1.Txt = "a\"b" :=
  ⟨rfl, by decide⟩

/-! ### Claims about the numeric decoder -/

/-- C3: on a JSON string value the decoder stores the string verbatim as
`Txt`, stores the numeric parse of it as `Val` (zero when the parse fails —
the parse error is swallowed) and returns no error; `"42"` yields `42`/"42"
and `"abc"` yields `0`/"abc". -/
theorem C3_flexint_string (f : FlexInt) (b s : String) :
    FlexInt.UnmarshalJSON f b (.ok (.str s)) =
      ({ Val := (parseFloat s).getD 0, Txt := s }, none) ∧
    (parseFloat s = none → (FlexInt.UnmarshalJSON f b (.ok (.str s))).1.Val = 0) ∧
    (FlexInt.UnmarshalJSON f b (.ok (.str "42"))).1 = { Val := 42, Txt := "42" } ∧
    (FlexInt.UnmarshalJSON f b (.ok (.str "abc"))).1 = { Val := 0, Txt := "abc" } := by
  refine ⟨rfl, ?_, ?_, ?_⟩
  · intro h
    show (parseFloat s).getD 0 = 0
    rw [h]
    rfl
  · show ({ Val := (parseFloat "42").getD 0, Txt := "42" } : FlexInt) = _
    decide
  · show ({ Val := (parseFloat "abc").getD 0, Txt := "abc" } : FlexInt) = _
    decide

theorem C3_flexint_string_witness :
    (FlexInt.UnmarshalJSON ⟨0, "z"⟩ "w" (.ok (.str "abc"))).1.Val = 0 :=
  (C3_flexint_string ⟨0, "z"⟩ "w" "abc").2.1 (by decide)

/-- C4: on a JSON number the decoder stores the number as `Val` and its
shortest round-trip fixed-decimal rendering as `Txt`; `42` renders as "42"
and `3.5` as "3.5", and re-parsing the rendering of any finite-decimal value
recovers it exactly. -/
theorem C4_flexint_number (f : FlexInt) (b : String) (q : ℚ) :
    FlexInt.UnmarshalJSON f b (.ok (.num q)) =
      ({ Val := q, Txt := formatFloat q }, none) ∧
    formatFloat 42 = "42" ∧
    formatFloat (mkRat 7 2) = "3.5" ∧
    (mkRat 7 2 : ℚ) = 7 / 2 ∧
    (HasFiniteDecimal q → parseFloat (formatFloat q) = some q) := by
  refine ⟨rfl, by decide, by decide, ?_, fun h => parseFloat_formatFloat h⟩
  rw [Rat.mkRat_eq_div]
  norm_num

theorem C4_flexint_number_witness :
    parseFloat (formatFloat (mkRat 7 2)) = some (mkRat 7 2) :=
  (C4_flexint_number ⟨0, "z"⟩ "w" (mkRat 7 2)).2.2.2.2 (by decide)

/-- C5: on a parsed JSON value the decoder succeeds exactly on the kinds
number, string and null; null stores `0`/"0"; any other kind (boolean,
array, object) fails with the wrapped "cannot unmarshal" error that renders
the offending raw bytes. -/
theorem C5_flexint_kinds (f : FlexInt) (b : String) (v : JSONValue) :
    ((FlexInt.UnmarshalJSON f b (.ok v)).2 = none ↔ v.decodableKind = true) ∧
    FlexInt.UnmarshalJSON f b (.ok .null) = ({ Val := 0, Txt := "0" }, none) ∧
    (v.decodableKind = false →
      (FlexInt.UnmarshalJSON f b (.ok v)).2 = some (wrapCannotUnmarshal b)) := by
  refine ⟨?_, rfl, ?_⟩
  · cases v <;> simp [FlexInt.UnmarshalJSON, JSONValue.decodableKind]
  · intro h
    cases v <;> first
      | rfl
      | (exfalso; exact absurd h (by simp [JSONValue.decodableKind]))

theorem C5_flexint_kinds_witness :
    (FlexInt.UnmarshalJSON ⟨0, "z"⟩ "true" (.ok (.bool true))).2 =
      some "[116 114 117 101]: cannot unmarshal to FlexInt" := by
  rw [(C5_flexint_kinds ⟨0, "z"⟩ "true" (.bool true)).2.2 rfl]
  decide

/-- C7: after every successful decode, re-parsing the stored `Txt` with the
best-effort parse reproduces the stored `Val` (for a number input this needs
the value to have a finite decimal expansion, which every `float64` has). -/
theorem C7_flexint_reparse_invariant (f g : FlexInt) (b : String) (v : JSONValue)
    (hsucc : FlexInt.UnmarshalJSON f b (.ok v) = (g, none))
    (hdec : ∀ q, v = .num q → HasFiniteDecimal q) :
    (parseFloat g.Txt).getD 0 = g.Val := by
  cases v with
  | num q =>
    have hg : ({ Val := q, Txt := formatFloat q } : FlexInt) = g :=
      congrArg Prod.fst hsucc
    rw [← hg]
    show (parseFloat (formatFloat q)).getD 0 = q
    rw [parseFloat_formatFloat (hdec q rfl)]
    rfl
  | str s =>
    have hg : ({ Val := (parseFloat s).getD 0, Txt := s } : FlexInt) = g :=
      congrArg Prod.fst hsucc
    rw [← hg]
  | null =>
    have hg : ({ Val := 0, Txt := "0" } : FlexInt) = g :=
      congrArg Prod.fst hsucc
    rw [← hg]
    decide
  | bool bb =>
    exact absurd (congrArg Prod.snd hsucc) (by simp [FlexInt.UnmarshalJSON])
  | arr elems =>
    exact absurd (congrArg Prod.snd hsucc) (by simp [FlexInt.UnmarshalJSON])
  | obj fields =>
    exact absurd (congrArg Prod.snd hsucc) (by simp [FlexInt.UnmarshalJSON])

theorem C7_flexint_reparse_invariant_witness :
    (parseFloat (FlexInt.mk (mkRat 7 2) "3.5").Txt).getD 0 =
      (FlexInt.mk (mkRat 7 2) "3.5").Val :=
  C7_flexint_reparse_invariant ⟨0, "z"⟩ ⟨mkRat 7 2, "3.5"⟩ "w" (.num (mkRat 7 2))
    (by decide)
    (fun q hq => by
      injection hq with h
      exact h ▸ (by decide : HasFiniteDecimal (mkRat 7 2)))

/-- C9: whenever the numeric decoder returns an error — a failed
`json.Unmarshal` or a non-decodable value kind — the receiver is left
exactly as it was before the call. -/
theorem C9_flexint_failure_atomic (f : FlexInt) (b : String)
    (unk : Except String JSONValue) (e : String)
    (herr : (FlexInt.UnmarshalJSON f b unk).2 = some e) :
    (FlexInt.UnmarshalJSON f b unk).1 = f := by
  cases unk with
  | error msg => rfl
  | ok v =>
    cases v <;> first
      | rfl
      | (exfalso; exact absurd herr (by simp [FlexInt.UnmarshalJSON]))

theorem C9_flexint_failure_atomic_witness :
    (FlexInt.UnmarshalJSON ⟨5, "5"⟩ "oops" (.error "bad")).1 = ⟨5, "5"⟩ :=
  C9_flexint_failure_atomic ⟨5, "5"⟩ "oops" (.error "bad") "bad" rfl
